import Mathlib

/-!
Verification of the MCQ quiz generator (src/app.py).

Strings are modelled as lists of characters.  The NLTK sentence splitter,
the part-of-speech tagger (the composition pos_tag after word_tokenize,
which is the only way the source uses the two) and the stopword list are
external linguistic resources; they are modelled as the fields of a
Tagger parameter.  The random sampler (random.sample) and shuffler
(random.shuffle) are function parameters, constrained in the theorems
only by the properties the Python library guarantees.  Fallible code is
modelled with Except: the source line parts[1] raises IndexError when
the selected answer word does not occur in its sentence, and that case
is mapped to Except.error.
-/

/-- One multiple-choice question, mirroring the MCQ dataclass of app.py. -/
structure MCQ where
  id : Nat
  question : List Char
  options : List (List Char)
  answer : List Char
deriving DecidableEq

/-- External linguistic resources used by generate_mcq_questions:
sentence splitting (sent_tokenize), tagging of a span into
(token, part-of-speech tag) pairs (pos_tag composed with word_tokenize),
and the english stopword list. -/
structure Tagger where
  sentTokenize : List Char → List (List Char)
  tag : List Char → List (List Char × List Char)
  stopWords : List (List Char)

/-- Python str.lower, character by character (basic latin model). -/
def lowerStr (s : List Char) : List Char := s.map Char.toLower

/-- Python str.isalpha: nonempty and every character alphabetic. -/
def isAlphaStr (s : List Char) : Bool := !s.isEmpty && s.all Char.isAlpha

/-- Python str.split() with no argument: split on whitespace runs,
discarding empty pieces.  The second argument accumulates the current
word in reverse. -/
def splitWsAux : List Char → List Char → List (List Char)
  | [], cur => if cur.isEmpty then [] else [cur.reverse]
  | c :: rest, cur =>
    if c.isWhitespace then
      if cur.isEmpty then splitWsAux rest []
      else cur.reverse :: splitWsAux rest []
    else splitWsAux rest (c :: cur)

/-- The whitespace normalisation of app.py line 136:
cleaned_text = " ".join(text.split()). -/
def cleanText (s : List Char) : List Char :=
  List.intercalate [' '] (splitWsAux s [])

/-- The blank marker inserted in place of the answer word (app.py line 180). -/
def blank : List Char := "_____".toList

/-- The tag prefix identifying nouns: tag.startswith("NN"). -/
def nnTag : List Char := "NN".toList

/-- Python sentence.split(answer_word, 1): the text before and after the
first occurrence of the separator, or none when the separator does not
occur (the Python call then returns a one-element list, and the
subsequent parts[1] access raises IndexError). -/
def splitFirst (sep : List Char) : List Char → Option (List Char × List Char)
  | [] => if List.isPrefixOf sep [] then some ([], List.drop sep.length []) else none
  | c :: rest =>
    if List.isPrefixOf sep (c :: rest) then some ([], List.drop sep.length (c :: rest))
    else Option.map (fun pr => (c :: pr.1, pr.2)) (splitFirst sep rest)

/-- The noun-pool comprehension of app.py line 146: keep the words whose
tag starts with NN, whose lowercase form is not a stopword, and which
are alphabetic. -/
def nounPool (stop : List (List Char)) (tagged : List (List Char × List Char)) :
    List (List Char) :=
  (tagged.filter (fun p =>
    List.isPrefixOf nnTag p.2 && !(stop.contains (lowerStr p.1)) && isAlphaStr p.1)).map
    (fun p => p.1)

/-- De-duplication by lowercase form with first-occurrence order
(app.py lines 148-154); the retained entries are the lowercase forms. -/
def dedupLower (seen : List (List Char)) : List (List Char) → List (List Char)
  | [] => []
  | n :: rest =>
    if seen.contains (lowerStr n) then dedupLower seen rest
    else lowerStr n :: dedupLower (lowerStr n :: seen) rest

/-- The global noun vocabulary (unique_nouns) built from the whole
normalised text. -/
def uniqueNouns (t : Tagger) (text : List Char) : List (List Char) :=
  dedupLower [] (nounPool t.stopWords (t.tag (cleanText text)))

/-- Scan a tagged sentence for the first word whose tag starts with NN
and whose lowercase form is in the pool (app.py lines 171-174). -/
def findAnswer (pool : List (List Char)) : List (List Char × List Char) → Option (List Char)
  | [] => none
  | p :: rest =>
    if List.isPrefixOf nnTag p.2 && pool.contains (lowerStr p.1) then some p.1
    else findAnswer pool rest

/-- Assemble one question record (app.py lines 183-194): blanked text,
distractors sampled from the pool minus the answer's lowercase form,
the answer appended, and the combined options shuffled. -/
def mkRecord (sample : List (List Char) → Nat → List (List Char))
    (shuffle : List (List Char) → List (List Char))
    (pool : List (List Char)) (qid : Nat) (a pre post : List Char) : MCQ :=
  let dpool := pool.filter (fun n => n != lowerStr a)
  let distractors := if dpool.isEmpty then [] else sample dpool (min 3 dpool.length)
  { id := qid
    question := pre ++ blank ++ post
    options := shuffle (distractors ++ [a])
    answer := a }

/-- The sentence loop of generate_mcq_questions (app.py lines 163-196):
break once the accumulated count reaches num, skip sentences without an
eligible noun (the Python guard is the falsiness test "if not
answer_word", which also skips an empty answer string), and otherwise
append one record and increment the id counter. -/
def genLoop (t : Tagger) (sample : List (List Char) → Nat → List (List Char))
    (shuffle : List (List Char) → List (List Char))
    (pool : List (List Char)) (num : Int) :
    List (List Char) → List MCQ → Nat → Except Unit (List MCQ)
  | [], acc, _ => .ok acc
  | s :: rest, acc, qid =>
    if (acc.length : Int) ≥ num then .ok acc
    else
      match findAnswer pool (t.tag s) with
      | none => genLoop t sample shuffle pool num rest acc qid
      | some a =>
        if a.isEmpty then genLoop t sample shuffle pool num rest acc qid
        else
          match splitFirst a s with
          | none => .error ()
          | some pr =>
            genLoop t sample shuffle pool num rest
              (acc ++ [mkRecord sample shuffle pool qid a pr.1 pr.2]) (qid + 1)

/-- generate_mcq_questions (app.py lines 111-198): build the vocabulary,
return the empty list when it is empty, and otherwise run the sentence
loop starting from the empty accumulator and id 0. -/
def generate (t : Tagger) (sample : List (List Char) → Nat → List (List Char))
    (shuffle : List (List Char) → List (List Char))
    (text : List Char) (num : Int) : Except Unit (List MCQ) :=
  let pool := uniqueNouns t text
  if pool.isEmpty then .ok []
  else genLoop t sample shuffle pool num (t.sentTokenize (cleanText text)) [] 0

/-- One graded answer, mirroring the result dict of the submit view. -/
structure GradeResult where
  question : List Char
  user_answer : Option (List Char)
  correct : Option (List Char)
  is_correct : Bool
deriving DecidableEq

/-- The literal key prefix "answer" of the submit view. -/
def ansLit : List Char := "answer".toList

/-- The literal key prefix "question" of the submit view. -/
def quesLit : List Char := "question".toList

/-- The key filter of the submit loop (app.py line 240):
key.startswith("q") and not key.startswith("answer"). -/
def isGradedKey (key : List Char) : Bool :=
  List.isPrefixOf ['q'] key && !(List.isPrefixOf ansLit key)

/-- Grade one form key (app.py lines 241-254): strip the leading
character to obtain the id, look up the submitted answer, the echoed
correct answer and the echoed question text, and compare; the
comparison some v == none is false, matching Python str == None. -/
def gradeOne (form : List (List Char × List Char)) (key : List Char) : GradeResult :=
  let qid := List.drop 1 key
  let user_answer := List.lookup key form
  let correct := List.lookup (ansLit ++ qid) form
  let questionText := List.lookup (quesLit ++ qid) form
  { question := questionText.getD []
    user_answer := user_answer
    correct := correct
    is_correct := user_answer == correct }

/-- The submit view loop over the posted keys in form order
(app.py lines 239-255). -/
def submitLoop (form : List (List Char × List Char)) :
    List (List Char) → List GradeResult × Nat
  | [] => ([], 0)
  | key :: rest =>
    if isGradedKey key then
      let r := gradeOne form key
      let p := submitLoop form rest
      (r :: p.1, (if r.is_correct then 1 else 0) + p.2)
    else submitLoop form rest

/-- The submit view (app.py lines 230-256): the graded results and the
aggregate score over the posted form. -/
def submitGrade (form : List (List Char × List Char)) : List GradeResult × Nat :=
  submitLoop form (form.map (fun kv => kv.1))

/-- Number of positions at which p occurs in s as a contiguous
substring. -/
def countOccs (p : List Char) : List Char → Nat
  | [] => if p.isEmpty then 1 else 0
  | c :: rest => (if List.isPrefixOf p (c :: rest) then 1 else 0) + countOccs p rest

/-- A fixed noun list for the concrete tagger used in the witnesses. -/
def cNouns : List (List Char) := ["cat", "dog", "mat", "park"].map String.toList

/-- A fixed stopword list for the concrete tagger used in the witnesses. -/
def cStop : List (List Char) := ["the", "is", "of", "on", "a", "in"].map String.toList

/-- Sentence splitting for the concrete tagger: cut after each period. -/
def splitOnDot : List Char → List Char → List (List Char)
  | [], cur => [cur.reverse]
  | c :: rest, cur =>
    if c = '.' then (cur.reverse ++ ['.']) :: splitOnDot rest []
    else splitOnDot rest (c :: cur)

/-- Word/tag assignment for the concrete tagger: split on whitespace and
tag a word NN exactly when its lowercase form is a listed noun. -/
def cTag (s : List Char) : List (List Char × List Char) :=
  (splitWsAux s []).map (fun w =>
    (w, if cNouns.contains (lowerStr w) then nnTag else "DT".toList))

/-- The concrete tagger used by the witnesses and counterexamples. -/
def cTagger : Tagger :=
  { sentTokenize := fun s => splitOnDot s []
    tag := cTag
    stopWords := cStop }

/-- A deterministic instance of random.sample: the first k elements. -/
def cSample (l : List (List Char)) (k : Nat) : List (List Char) := l.take k

/-- A deterministic instance of random.shuffle: the identity permutation. -/
def cShuffle (l : List (List Char)) : List (List Char) := l

/-- A two-sentence input text used by several witnesses. -/
def cText : List Char := "The cat sat. The dog ran.".toList

/-- An input whose only eligible noun occurs twice in its sentence. -/
def cTextTwice : List Char := "The cat chased the cat.".toList

/-- An input with no eligible noun at all. -/
def cTextNoNouns : List Char := "The is of on.".toList

/-- An input whose sentence already contains the blank-marker substring. -/
def cTextU : List Char := "cat _____.".toList

/-- The first record generated from cText. -/
def cRecA : MCQ :=
  ⟨0, "The _____ sat.".toList, ["dog".toList, "cat".toList], "cat".toList⟩

/-- The second record generated from cText. -/
def cRecB : MCQ :=
  ⟨1, " The _____ ran.".toList, ["cat".toList, "dog".toList], "dog".toList⟩

/-- The record generated from cTextTwice. -/
def cRecTwice : MCQ :=
  ⟨0, "The _____ chased the cat.".toList, ["cat".toList], "cat".toList⟩

/-- The record generated from cTextU. -/
def cRecU : MCQ :=
  ⟨0, "_____ _____.".toList, ["cat".toList], "cat".toList⟩

/-- A posted form holding one answered question together with its echoed
hidden fields, as the quiz template round-trips them. -/
def cForm : List (List Char × List Char) :=
  [("q0".toList, "cat".toList),
   ("answer0".toList, "cat".toList),
   ("question0".toList, "The _____ sat.".toList)]

/-! Helper lemmas about characters and lowercasing. -/

theorem char_toNat_ofNat (n : Nat) (h : n.isValidChar) : (Char.ofNat n).toNat = n := by
  simp [Char.ofNat, h, Char.ofNatAux, Char.toNat, UInt32.toNat]

theorem toLower_toLower (c : Char) : c.toLower.toLower = c.toLower := by
  unfold Char.toLower
  by_cases h : c.toNat ≥ 65 ∧ c.toNat ≤ 90
  · rw [if_pos h]
    have hv : (c.toNat + 32).isValidChar := by
      rcases h with ⟨h1, h2⟩
      left; omega
    rw [if_neg]
    rw [char_toNat_ofNat (c.toNat + 32) hv]
    omega
  · rw [if_neg h, if_neg h]

theorem lowerStr_lowerStr (s : List Char) : lowerStr (lowerStr s) = lowerStr s := by
  simp [lowerStr, List.map_map]
  intro c _
  exact toLower_toLower c

/-! Helper lemmas about the de-duplicated vocabulary. -/

theorem dedupLower_spec (l : List (List Char)) :
    ∀ seen : List (List Char),
      (∀ x ∈ dedupLower seen l, ¬ x ∈ seen) ∧ (dedupLower seen l).Nodup := by
  induction l with
  | nil => intro seen; simp [dedupLower]
  | cons n rest ih =>
    intro seen
    simp only [dedupLower]
    by_cases h : seen.contains (lowerStr n) = true
    · rw [if_pos h]; exact ih seen
    · rw [if_neg h]
      have hseen : ¬ lowerStr n ∈ seen := by
        intro hmem
        exact h (List.elem_iff.mpr hmem)
      obtain ⟨ih1, ih2⟩ := ih (lowerStr n :: seen)
      constructor
      · intro x hx
        rcases List.mem_cons.mp hx with rfl | hx
        · exact hseen
        · intro hx2
          exact ih1 x hx (List.mem_cons_of_mem _ hx2)
      · refine List.nodup_cons.mpr ⟨?_, ih2⟩
        intro hmem
        exact ih1 _ hmem (List.mem_cons_self _ _)

theorem mem_dedupLower_lower (l : List (List Char)) :
    ∀ (seen : List (List Char)) (x : List Char),
      x ∈ dedupLower seen l → lowerStr x = x := by
  induction l with
  | nil => intro seen x hx; simp [dedupLower] at hx
  | cons n rest ih =>
    intro seen x hx
    simp only [dedupLower] at hx
    by_cases h : seen.contains (lowerStr n) = true
    · rw [if_pos h] at hx; exact ih seen x hx
    · rw [if_neg h] at hx
      rcases List.mem_cons.mp hx with rfl | hx
      · exact lowerStr_lowerStr n
      · exact ih _ x hx

theorem uniqueNouns_nodup (t : Tagger) (text : List Char) :
    (uniqueNouns t text).Nodup :=
  (dedupLower_spec _ []).2

theorem mem_uniqueNouns_lower (t : Tagger) (text : List Char) (x : List Char)
    (hx : x ∈ uniqueNouns t text) : lowerStr x = x :=
  mem_dedupLower_lower _ [] x hx

/-! Helper lemmas about splitFirst: it cuts the input at the first
occurrence of the separator. -/

theorem splitFirst_eq (sep : List Char) :
    ∀ (s pre post : List Char), splitFirst sep s = some (pre, post) →
      s = pre ++ sep ++ post := by
  intro s
  induction s with
  | nil =>
    intro pre post h
    simp only [splitFirst] at h
    by_cases hp : List.isPrefixOf sep ([] : List Char) = true
    · rw [if_pos hp] at h
      have hsep : sep = [] := by
        have := List.isPrefixOf_iff_prefix.mp hp
        simpa using this
      obtain ⟨rfl, rfl⟩ : pre = [] ∧ List.drop sep.length ([] : List Char) = post := by
        injection h with h2
        injection h2 with ha hb
        exact ⟨ha.symm, hb⟩
      simp [hsep]
    · rw [if_neg hp] at h
      cases h
  | cons c rest ih =>
    intro pre post h
    simp only [splitFirst] at h
    by_cases hp : List.isPrefixOf sep (c :: rest) = true
    · rw [if_pos hp] at h
      obtain ⟨t, ht⟩ := List.isPrefixOf_iff_prefix.mp hp
      obtain ⟨rfl, hpost⟩ : pre = [] ∧ List.drop sep.length (c :: rest) = post := by
        injection h with h2
        injection h2 with ha hb
        exact ⟨ha.symm, hb⟩
      subst hpost
      rw [← ht]
      have : List.drop sep.length (sep ++ t) = t := by
        have h0 := @List.drop_append Char sep t 0
        rw [Nat.add_zero] at h0
        rw [h0]
        simp
      rw [this]
      simp
    · rw [if_neg hp] at h
      cases hrec : splitFirst sep rest with
      | none => rw [hrec] at h; cases h
      | some pr =>
        rw [hrec] at h
        simp only [Option.map_some'] at h
        obtain ⟨hpre, hpost⟩ : c :: pr.1 = pre ∧ pr.2 = post := by
          injection h with h2
          injection h2 with ha hb
          exact ⟨ha, hb⟩
        subst hpre
        subst hpost
        have := ih pr.1 pr.2 (by rw [hrec])
        rw [List.cons_append, List.cons_append, ← this]

theorem splitFirst_not_before (sep : List Char) :
    ∀ (s pre post : List Char), splitFirst sep s = some (pre, post) →
      ∀ i < pre.length, List.isPrefixOf sep (s.drop i) = false := by
  intro s
  induction s with
  | nil =>
    intro pre post h
    simp only [splitFirst] at h
    by_cases hp : List.isPrefixOf sep ([] : List Char) = true
    · rw [if_pos hp] at h
      obtain rfl : pre = [] := by
        injection h with h2
        injection h2 with ha hb
        exact ha.symm
      intro i hi
      simp at hi
    · rw [if_neg hp] at h
      cases h
  | cons c rest ih =>
    intro pre post h
    simp only [splitFirst] at h
    by_cases hp : List.isPrefixOf sep (c :: rest) = true
    · rw [if_pos hp] at h
      obtain rfl : pre = [] := by
        injection h with h2
        injection h2 with ha hb
        exact ha.symm
      intro i hi
      simp at hi
    · rw [if_neg hp] at h
      cases hrec : splitFirst sep rest with
      | none => rw [hrec] at h; cases h
      | some pr =>
        rw [hrec] at h
        simp only [Option.map_some'] at h
        obtain ⟨hpre, hpost⟩ : c :: pr.1 = pre ∧ pr.2 = post := by
          injection h with h2
          injection h2 with ha hb
          exact ⟨ha, hb⟩
        subst hpre
        intro i hi
        cases i with
        | zero =>
          simpa using Bool.not_eq_true _ |>.mp hp
        | succ j =>
          have hj : j < pr.1.length := by
            simpa using Nat.lt_of_succ_lt_succ (by simpa using hi)
          simpa using ih pr.1 pr.2 (by rw [hrec]) j hj

/-! Helper lemmas about counting occurrences of the blank marker. -/

theorem blank_eq : blank = List.replicate 5 '_' := by decide

theorem countOccs_cons (p : List Char) (c : Char) (rest : List Char) :
    countOccs p (c :: rest) =
      (if List.isPrefixOf p (c :: rest) then 1 else 0) + countOccs p rest := rfl

theorem not_blank_prefix_cons (c : Char) (v : List Char) (hc : c ≠ '_') :
    ¬ blank <+: (c :: v) := by
  intro h
  obtain ⟨t, ht⟩ := h
  rw [blank_eq] at ht
  simp [List.replicate_succ] at ht
  exact hc ht.1.symm

theorem countOccs_blank_free (v : List Char) (hv : ∀ c ∈ v, c ≠ '_') :
    countOccs blank v = 0 := by
  induction v with
  | nil => decide
  | cons c v' ih =>
    have hc : c ≠ '_' := hv c (List.mem_cons_self _ _)
    rw [countOccs_cons]
    simp [ List.isPrefixOf_iff_prefix, not_blank_prefix_cons c v' hc]
    exact ih (fun x hx => hv x (List.mem_cons_of_mem _ hx))

theorem isPrefixOf_replicate_underscore (k : Nat) :
    ∀ (m : Nat) (v : List Char), k < m → (∀ c ∈ v, c ≠ '_') →
      List.isPrefixOf (List.replicate m '_') (List.replicate k '_' ++ v) = false := by
  induction k with
  | zero =>
    intro m v hm hv
    cases m with
    | zero => omega
    | succ m' =>
      simp only [List.replicate_succ, List.replicate_zero, List.nil_append]
      cases v with
      | nil => simp [List.isPrefixOf]
      | cons c v' =>
        have hc : c ≠ '_' := hv c (List.mem_cons_self _ _)
        have hbeq : ('_' == c) = false := by
          simp only [beq_eq_false_iff_ne]
          exact fun h => hc h.symm
        simp [List.isPrefixOf, hbeq]
  | succ k' ih =>
    intro m v hm hv
    cases m with
    | zero => omega
    | succ m' =>
      simp only [List.replicate_succ, List.cons_append, List.isPrefixOf]
      simp only [beq_self_eq_true, Bool.true_and]
      exact ih m' v (by omega) hv

theorem countOccs_blank_replicate (k : Nat) (v : List Char)
    (hk : k ≤ 4) (hv : ∀ c ∈ v, c ≠ '_') :
    countOccs blank (List.replicate k '_' ++ v) = 0 := by
  induction k with
  | zero => simpa using countOccs_blank_free v hv
  | succ k' ih =>
    have hform : ¬ blank <+: (List.replicate (k' + 1) '_' ++ v) := by
      intro hp
      have hb : List.isPrefixOf blank (List.replicate (k' + 1) '_' ++ v) = true :=
        List.isPrefixOf_iff_prefix.mpr hp
      rw [blank_eq] at hb
      rw [isPrefixOf_replicate_underscore (k' + 1) 5 v (by omega) hv] at hb
      exact Bool.noConfusion hb
    have hstep : List.replicate (k' + 1) '_' ++ v = '_' :: (List.replicate k' '_' ++ v) := by
      simp [List.replicate_succ]
    rw [hstep] at hform
    rw [hstep, countOccs_cons]
    simp [ List.isPrefixOf_iff_prefix, hform]
    exact ih (by omega)

theorem countOccs_blank_append_blank (v : List Char) (hv : ∀ c ∈ v, c ≠ '_') :
    countOccs blank (blank ++ v) = 1 := by
  have hpre : blank <+: blank ++ v := List.prefix_append blank v
  have hstep : blank ++ v = '_' :: (List.replicate 4 '_' ++ v) := by
    rw [blank_eq]
    simp [List.replicate_succ]
  rw [hstep] at hpre
  rw [hstep, countOccs_cons]
  have h0 := countOccs_blank_replicate 4 v (by omega) hv
  have hb : List.isPrefixOf blank ('_' :: (List.replicate 4 '_' ++ v)) = true :=
    List.isPrefixOf_iff_prefix.mpr hpre
  rw [if_pos hb, h0]

theorem countOccs_blank_prepend (u : List Char) (z : List Char)
    (hu : ∀ c ∈ u, c ≠ '_') :
    countOccs blank (u ++ z) = countOccs blank z := by
  induction u with
  | nil => simp
  | cons c u' ih =>
    have hc : c ≠ '_' := hu c (List.mem_cons_self _ _)
    rw [List.cons_append, countOccs_cons]
    simp [ List.isPrefixOf_iff_prefix, not_blank_prefix_cons c (u' ++ z) hc]
    exact ih (fun x hx => hu x (List.mem_cons_of_mem _ hx))

theorem countOccs_insert_blank (u v : List Char)
    (hu : ∀ c ∈ u, c ≠ '_') (hv : ∀ c ∈ v, c ≠ '_') :
    countOccs blank (u ++ blank ++ v) = 1 := by
  rw [List.append_assoc, countOccs_blank_prepend u (blank ++ v) hu]
  exact countOccs_blank_append_blank v hv

/-! Helper lemmas about the sentence loop. -/

theorem genLoop_stop (t : Tagger) (sample : List (List Char) → Nat → List (List Char))
    (shuffle : List (List Char) → List (List Char))
    (pool : List (List Char)) (num : Int) (ss : List (List Char)) (acc : List MCQ)
    (qid : Nat) (h : num ≤ (acc.length : Int)) :
    genLoop t sample shuffle pool num ss acc qid = .ok acc := by
  cases ss with
  | nil => rfl
  | cons s rest =>
    simp only [genLoop]
    rw [if_pos h]

theorem genLoop_length (t : Tagger) (sample : List (List Char) → Nat → List (List Char))
    (shuffle : List (List Char) → List (List Char))
    (pool : List (List Char)) (num : Int) :
    ∀ (ss : List (List Char)) (acc : List MCQ) (qid : Nat) (res : List MCQ),
      genLoop t sample shuffle pool num ss acc qid = .ok res →
      (res.length : Int) ≤ max (acc.length : Int) num := by
  intro ss
  induction ss with
  | nil =>
    intro acc qid res h
    simp only [genLoop] at h
    obtain rfl : acc = res := by injection h
    exact le_max_left _ _
  | cons s rest ih =>
    intro acc qid res h
    simp only [genLoop] at h
    by_cases hg : num ≤ (acc.length : Int)
    · rw [if_pos hg] at h
      obtain rfl : acc = res := by injection h
      exact le_max_left _ _
    · rw [if_neg hg] at h
      split at h
      · exact ih acc qid res h
      · split at h
        · exact ih acc qid res h
        · split at h
          · cases h
          · have hlen := ih _ _ _ h
            rw [List.length_append] at hlen
            simp only [List.length_singleton] at hlen
            push_cast at hlen ⊢
            omega

theorem genLoop_ids (t : Tagger) (sample : List (List Char) → Nat → List (List Char))
    (shuffle : List (List Char) → List (List Char))
    (pool : List (List Char)) (num : Int) :
    ∀ (ss : List (List Char)) (acc : List MCQ) (qid : Nat) (res : List MCQ),
      genLoop t sample shuffle pool num ss acc qid = .ok res →
      acc.map (fun q => q.id) = List.range acc.length → qid = acc.length →
      res.map (fun q => q.id) = List.range res.length := by
  intro ss
  induction ss with
  | nil =>
    intro acc qid res h hacc hqid
    obtain rfl : acc = res := by injection h
    exact hacc
  | cons s rest ih =>
    intro acc qid res h hacc hqid
    simp only [genLoop] at h
    by_cases hg : num ≤ (acc.length : Int)
    · rw [if_pos hg] at h
      obtain rfl : acc = res := by injection h
      exact hacc
    · rw [if_neg hg] at h
      split at h
      · exact ih acc qid res h hacc hqid
      · split at h
        · exact ih acc qid res h hacc hqid
        · split at h
          · cases h
          · refine ih _ _ _ h ?_ ?_
            · rw [List.map_append, hacc, hqid]
              simp [mkRecord, List.range_succ]
            · simp [hqid]

theorem genLoop_shape (t : Tagger) (sample : List (List Char) → Nat → List (List Char))
    (shuffle : List (List Char) → List (List Char))
    (pool : List (List Char)) (num : Int) (P : MCQ → Prop) :
    ∀ (ss : List (List Char)) (acc : List MCQ) (qid : Nat) (res : List MCQ),
      genLoop t sample shuffle pool num ss acc qid = .ok res →
      (∀ q ∈ acc, P q) →
      (∀ s ∈ ss, ∀ (i : Nat) (a pre post : List Char),
        findAnswer pool (t.tag s) = some a → a.isEmpty = false →
        splitFirst a s = some (pre, post) →
        P (mkRecord sample shuffle pool i a pre post)) →
      ∀ q ∈ res, P q := by
  intro ss
  induction ss with
  | nil =>
    intro acc qid res h hacc hnew
    obtain rfl : acc = res := by injection h
    exact hacc
  | cons s rest ih =>
    intro acc qid res h hacc hnew
    simp only [genLoop] at h
    have hnewr : ∀ s2 ∈ rest, ∀ (i : Nat) (a pre post : List Char),
        findAnswer pool (t.tag s2) = some a → a.isEmpty = false →
        splitFirst a s2 = some (pre, post) →
        P (mkRecord sample shuffle pool i a pre post) :=
      fun s2 hs2 => hnew s2 (List.mem_cons_of_mem _ hs2)
    by_cases hg : num ≤ (acc.length : Int)
    · rw [if_pos hg] at h
      obtain rfl : acc = res := by injection h
      exact hacc
    · rw [if_neg hg] at h
      split at h
      · exact ih acc qid res h hacc hnewr
      · rename_i a hf
        split at h
        · exact ih acc qid res h hacc hnewr
        · rename_i hne
          split at h
          · cases h
          · rename_i pr hsp
            refine ih _ _ _ h ?_ hnewr
            intro q hq
            rcases List.mem_append.mp hq with hq | hq
            · exact hacc q hq
            · rcases List.mem_singleton.mp hq with rfl
              exact hnew s (List.mem_cons_self _ _) qid a pr.1 pr.2 hf
                (Bool.not_eq_true _ |>.mp hne) (by rw [hsp])

/-- Transfer a per-record property through generate: every record of a
successful run is an mkRecord built from some sentence of the tokenised
text, its first eligible noun, and the split at that noun's first
occurrence. -/
theorem generate_shape (t : Tagger) (sample : List (List Char) → Nat → List (List Char))
    (shuffle : List (List Char) → List (List Char))
    (text : List Char) (num : Int) (qs : List MCQ) (P : MCQ → Prop)
    (hgen : generate t sample shuffle text num = .ok qs)
    (hnew : ∀ s ∈ t.sentTokenize (cleanText text), ∀ (i : Nat) (a pre post : List Char),
      findAnswer (uniqueNouns t text) (t.tag s) = some a → a.isEmpty = false →
      splitFirst a s = some (pre, post) →
      P (mkRecord sample shuffle (uniqueNouns t text) i a pre post)) :
    ∀ q ∈ qs, P q := by
  simp only [generate] at hgen
  by_cases hpool : (uniqueNouns t text).isEmpty = true
  · rw [if_pos hpool] at hgen
    obtain rfl : ([] : List MCQ) = qs := by injection hgen
    intro q hq
    cases hq
  · rw [if_neg hpool] at hgen
    exact genLoop_shape t sample shuffle (uniqueNouns t text) num P
      (t.sentTokenize (cleanText text)) [] 0 qs hgen (by intro q hq; cases hq) hnew

/-! Helper lemmas about the grading loop. -/

theorem submitLoop_score (form : List (List Char × List Char)) :
    ∀ keys : List (List Char),
      (submitLoop form keys).2 = (submitLoop form keys).1.countP (fun r => r.is_correct) := by
  intro keys
  induction keys with
  | nil => rfl
  | cons key rest ih =>
    simp only [submitLoop]
    by_cases hk : isGradedKey key = true
    · rw [if_pos hk]
      simp only [List.countP_cons]
      rw [ih]
      by_cases hc : (gradeOne form key).is_correct = true
      · simp [hc, Nat.add_comm]
      · simp [hc]
    · rw [if_neg hk]
      exact ih

theorem submitLoop_is_correct (form : List (List Char × List Char)) :
    ∀ (keys : List (List Char)) (r : GradeResult),
      r ∈ (submitLoop form keys).1 →
      r.is_correct = (r.user_answer == r.correct) := by
  intro keys
  induction keys with
  | nil =>
    intro r hr
    cases hr
  | cons key rest ih =>
    intro r hr
    simp only [submitLoop] at hr
    by_cases hk : isGradedKey key = true
    · rw [if_pos hk] at hr
      rcases List.mem_cons.mp hr with rfl | hr
      · rfl
      · exact ih r hr
    · rw [if_neg hk] at hr
      exact ih r hr

theorem submitLoop_length (form : List (List Char × List Char)) :
    ∀ keys : List (List Char),
      (submitLoop form keys).1.length = keys.countP isGradedKey := by
  intro keys
  induction keys with
  | nil => rfl
  | cons key rest ih =>
    simp only [submitLoop, List.countP_cons]
    by_cases hk : isGradedKey key = true
    · rw [if_pos hk]
      simp [hk, ih]
    · rw [if_neg hk]
      simp [hk, ih]

/-! Properties of the deterministic sample and shuffle instances, matching
what the Python random module guarantees for random.sample (k distinct
positions) and random.shuffle (a permutation in place). -/

theorem cSample_length (l : List (List Char)) (k : Nat) (h : k ≤ l.length) :
    (cSample l k).length = k := by
  simp [cSample, List.length_take]
  omega

theorem cSample_mem (l : List (List Char)) (k : Nat) (x : List Char)
    (hx : x ∈ cSample l k) : x ∈ l :=
  List.mem_of_mem_take hx

theorem cSample_nodup (l : List (List Char)) (k : Nat) (h : l.Nodup) :
    (cSample l k).Nodup :=
  h.sublist (List.take_sublist k l)

theorem cShuffle_perm (l : List (List Char)) : List.Perm (cShuffle l) l :=
  List.Perm.refl l

/-! The claims. -/

/-- C6: if the deduplicated global noun pool built from the entire input
text is empty, generate_mcq_questions returns an empty sequence as a
normal result, not an error. -/
theorem generate_empty_vocab_empty (t : Tagger)
    (sample : List (List Char) → Nat → List (List Char))
    (shuffle : List (List Char) → List (List Char))
    (text : List Char) (num : Int)
    (h : uniqueNouns t text = []) :
    generate t sample shuffle text num = .ok [] := by
  have hpool : (uniqueNouns t text).isEmpty = true := by
    rw [h]
    rfl
  simp only [generate]
  rw [if_pos hpool]

/-- Witness for C6 at the concrete input "The is of on.": the vocabulary
is empty and generation returns the empty list. -/
theorem generate_empty_vocab_empty_witness :
    uniqueNouns cTagger cTextNoNouns = [] ∧
    generate cTagger cSample cShuffle cTextNoNouns 5 = .ok [] := by
  refine ⟨by decide, ?_⟩
  exact generate_empty_vocab_empty cTagger cSample cShuffle cTextNoNouns 5 (by decide)

/-- C8: for every input text, calling generate_mcq_questions with
num_questions equal to 0 or any negative integer returns an empty
sequence, with no questions attempted. -/
theorem generate_nonpositive_empty (t : Tagger)
    (sample : List (List Char) → Nat → List (List Char))
    (shuffle : List (List Char) → List (List Char))
    (text : List Char) (num : Int) (h : num ≤ 0) :
    generate t sample shuffle text num = .ok [] := by
  simp only [generate]
  by_cases hpool : (uniqueNouns t text).isEmpty = true
  · rw [if_pos hpool]
  · rw [if_neg hpool]
    exact genLoop_stop t sample shuffle (uniqueNouns t text) num
      (t.sentTokenize (cleanText text)) [] 0 (by simpa using h)

/-- Witness for C8: generation with num_questions equal to -3 on a text
with eligible nouns returns the empty list. -/
theorem generate_nonpositive_empty_witness :
    (-3 : Int) ≤ 0 ∧ generate cTagger cSample cShuffle cText (-3) = .ok [] :=
  ⟨by decide, generate_nonpositive_empty cTagger cSample cShuffle cText (-3) (by decide)⟩

/-- C7: within one invocation of generate_mcq_questions, the id fields of
the returned records are unique and form the contiguous range
0, 1, ..., len(result)-1, assigned in generation order. -/
theorem generate_ids_contiguous (t : Tagger)
    (sample : List (List Char) → Nat → List (List Char))
    (shuffle : List (List Char) → List (List Char))
    (text : List Char) (num : Int) (qs : List MCQ)
    (hgen : generate t sample shuffle text num = .ok qs) :
    qs.map (fun q => q.id) = List.range qs.length ∧
    (qs.map (fun q => q.id)).Nodup := by
  have hmain : qs.map (fun q => q.id) = List.range qs.length := by
    simp only [generate] at hgen
    by_cases hpool : (uniqueNouns t text).isEmpty = true
    · rw [if_pos hpool] at hgen
      obtain rfl : ([] : List MCQ) = qs := by injection hgen
      simp
    · rw [if_neg hpool] at hgen
      exact genLoop_ids t sample shuffle (uniqueNouns t text) num
        (t.sentTokenize (cleanText text)) [] 0 qs hgen (by simp) (by simp)
  refine ⟨hmain, ?_⟩
  rw [hmain]
  exact List.nodup_range _

/-- Witness for C7 at cText: the two generated records carry ids 0 and 1. -/
theorem generate_ids_contiguous_witness :
    ([cRecA, cRecB].map (fun q => q.id) =
      List.range ([cRecA, cRecB] : List MCQ).length) ∧
    (([cRecA, cRecB] : List MCQ).map (fun q => q.id)).Nodup :=
  generate_ids_contiguous cTagger cSample cShuffle cText 5 [cRecA, cRecB] (by rfl)

/-- Counterexample for C4 as stated: with num_questions = -1 the result is
the empty list, whose length 0 is not at most -1. -/
theorem generate_length_bound_neg_cex :
    generate cTagger cSample cShuffle cText (-1) = .ok [] ∧
    ¬ ((([] : List MCQ).length : Int) ≤ -1) := by
  refine ⟨by rfl, by decide⟩

/-- C4 (amended): the returned sequence has length at most
max num_questions 0, and the sentence loop returns its accumulator
untouched as soon as the accumulated count has reached num_questions. -/
theorem generate_length_bound_and_stops (t : Tagger)
    (sample : List (List Char) → Nat → List (List Char))
    (shuffle : List (List Char) → List (List Char))
    (text : List Char) (num : Int) (qs : List MCQ)
    (hgen : generate t sample shuffle text num = .ok qs) :
    (qs.length : Int) ≤ max num 0 ∧
    ∀ (ss : List (List Char)) (acc : List MCQ) (qid : Nat),
      num ≤ (acc.length : Int) →
      genLoop t sample shuffle (uniqueNouns t text) num ss acc qid = .ok acc := by
  constructor
  · simp only [generate] at hgen
    by_cases hpool : (uniqueNouns t text).isEmpty = true
    · rw [if_pos hpool] at hgen
      obtain rfl : ([] : List MCQ) = qs := by injection hgen
      simp
    · rw [if_neg hpool] at hgen
      have hlen := genLoop_length t sample shuffle (uniqueNouns t text) num
        (t.sentTokenize (cleanText text)) [] 0 qs hgen
      have h0 : ((([] : List MCQ)).length : Int) = 0 := by simp
      rw [h0] at hlen
      omega
  · intro ss acc qid hge
    exact genLoop_stop t sample shuffle (uniqueNouns t text) num ss acc qid hge

/-- Witness for C4 (amended) at cText with num_questions = 5. -/
theorem generate_length_bound_and_stops_witness :
    ((([cRecA, cRecB] : List MCQ).length : Int) ≤ max 5 0) ∧
    genLoop cTagger cSample cShuffle (uniqueNouns cTagger cText) 5
      [cTextNoNouns] [cRecA, cRecB, cRecA, cRecB, cRecA] 0 =
      .ok [cRecA, cRecB, cRecA, cRecB, cRecA] := by
  have h := generate_length_bound_and_stops cTagger cSample cShuffle cText 5
    [cRecA, cRecB] (by rfl)
  exact ⟨h.1, h.2 [cTextNoNouns] [cRecA, cRecB, cRecA, cRecB, cRecA] 0 (by decide)⟩

/-- C5: grading computes per-question correctness as exact case-sensitive
string equality between the submitted answer and the round-tripped
correct answer, and the aggregate score equals the count of result
records marked correct. -/
theorem submit_score_exact_match (form : List (List Char × List Char)) :
    (submitGrade form).2 = (submitGrade form).1.countP (fun r => r.is_correct) ∧
    ∀ r ∈ (submitGrade form).1,
      (r.is_correct = true ↔ r.user_answer = r.correct) := by
  refine ⟨submitLoop_score form _, ?_⟩
  intro r hr
  rw [submitLoop_is_correct form _ r hr]
  exact beq_iff_eq

/-- Witness for C5 at the concrete form cForm. -/
theorem submit_score_exact_match_witness :
    (submitGrade cForm).2 = (submitGrade cForm).1.countP (fun r => r.is_correct) ∧
    ((gradeOne cForm ("q0".toList)).is_correct = true ↔
      (gradeOne cForm ("q0".toList)).user_answer = (gradeOne cForm ("q0".toList)).correct) := by
  refine ⟨(submit_score_exact_match cForm).1, ?_⟩
  exact (submit_score_exact_match cForm).2 (gradeOne cForm ("q0".toList)) (by decide)

/-- C10: the grading endpoint produces one result record for every posted
form key that starts with "q" and does not start with "answer"; in
particular a form holding the round-tripped hidden field "question0"
yields, beyond the record for "q0", an additional record with derived id
"uestion0" and no matching "answer..." field, hence graded incorrect. -/
theorem submit_key_filter_quirk :
    (∀ form : List (List Char × List Char),
      ((submitGrade form).1).length = (form.map (fun kv => kv.1)).countP isGradedKey) ∧
    submitGrade cForm =
      ([⟨"The _____ sat.".toList, some ("cat".toList), some ("cat".toList), true⟩,
        ⟨[], some ("The _____ sat.".toList), none, false⟩], 1) := by
  refine ⟨?_, by rfl⟩
  intro form
  exact submitLoop_length form _

/-- Witness for C10: the record count equals the filtered key count on
the concrete form cForm. -/
theorem submit_key_filter_quirk_witness :
    ((submitGrade cForm).1).length = (cForm.map (fun kv => kv.1)).countP isGradedKey :=
  (submit_key_filter_quirk).1 cForm

/-- Cardinality and membership facts about one assembled record, given
that shuffle permutes and sample returns exactly the requested number of
elements. -/
theorem mkRecord_card (sample : List (List Char) → Nat → List (List Char))
    (shuffle : List (List Char) → List (List Char))
    (pool : List (List Char)) (i : Nat) (a pre post : List Char)
    (hsh : ∀ l, List.Perm (shuffle l) l)
    (hsa : ∀ (l : List (List Char)) (k : Nat), k ≤ l.length → (sample l k).length = k) :
    (mkRecord sample shuffle pool i a pre post).answer ∈
      (mkRecord sample shuffle pool i a pre post).options ∧
    1 ≤ (mkRecord sample shuffle pool i a pre post).options.length ∧
    (mkRecord sample shuffle pool i a pre post).options.length ≤ 4 := by
  simp only [mkRecord]
  set ds := (if (pool.filter (fun n => n != lowerStr a)).isEmpty then ([] : List (List Char))
    else sample (pool.filter (fun n => n != lowerStr a))
      (min 3 (pool.filter (fun n => n != lowerStr a)).length)) with hds
  have hmem : a ∈ shuffle (ds ++ [a]) := ((hsh _).mem_iff).mpr (by simp)
  have hlen : (shuffle (ds ++ [a])).length = ds.length + 1 := by
    rw [(hsh _).length_eq]
    simp
  have hdslen : ds.length ≤ 3 := by
    rw [hds]
    by_cases hde : (pool.filter (fun n => n != lowerStr a)).isEmpty = true
    · rw [if_pos hde]
      simp
    · rw [if_neg hde]
      rw [hsa _ _ (min_le_right _ _)]
      exact min_le_left _ _
  exact ⟨hmem, by omega, by omega⟩

/-- C1: for every generated question record, the answer string (original
casing) is a member of the options list, and the options list has size
between 1 and 4 (the answer plus up to 3 distractors). -/
theorem generate_answer_mem_options (t : Tagger)
    (sample : List (List Char) → Nat → List (List Char))
    (shuffle : List (List Char) → List (List Char))
    (text : List Char) (num : Int) (qs : List MCQ)
    (hsh : ∀ l, List.Perm (shuffle l) l)
    (hsa : ∀ (l : List (List Char)) (k : Nat), k ≤ l.length → (sample l k).length = k)
    (hgen : generate t sample shuffle text num = .ok qs) :
    ∀ q ∈ qs, q.answer ∈ q.options ∧ 1 ≤ q.options.length ∧ q.options.length ≤ 4 := by
  refine generate_shape t sample shuffle text num qs _ hgen ?_
  intro s hs i a pre post hf hne hsp
  exact mkRecord_card sample shuffle (uniqueNouns t text) i a pre post hsh hsa

/-- Witness for C1 at cText: the first generated record has its answer
among its two options. -/
theorem generate_answer_mem_options_witness :
    cRecA.answer ∈ cRecA.options ∧
    1 ≤ cRecA.options.length ∧ cRecA.options.length ≤ 4 := by
  have h := generate_answer_mem_options cTagger cSample cShuffle cText 5
    [cRecA, cRecB] cShuffle_perm cSample_length (by rfl)
  exact h cRecA (by decide)

/-- Distinctness facts about one assembled record, given that shuffle
permutes, sample draws from its pool without replacement, the pool has
no duplicates, and every pool entry is its own lowercase form. -/
theorem mkRecord_distinct (sample : List (List Char) → Nat → List (List Char))
    (shuffle : List (List Char) → List (List Char))
    (pool : List (List Char)) (i : Nat) (a pre post : List Char)
    (hsh : ∀ l, List.Perm (shuffle l) l)
    (hmem : ∀ (l : List (List Char)) (k : Nat) (x : List Char), x ∈ sample l k → x ∈ l)
    (hnd : ∀ (l : List (List Char)) (k : Nat), l.Nodup → (sample l k).Nodup)
    (hpool_nd : pool.Nodup)
    (hpool_low : ∀ x ∈ pool, lowerStr x = x) :
    (mkRecord sample shuffle pool i a pre post).options.Nodup ∧
    ∀ d ∈ (mkRecord sample shuffle pool i a pre post).options,
      d ≠ (mkRecord sample shuffle pool i a pre post).answer →
      d ∈ pool ∧ d ≠ lowerStr (mkRecord sample shuffle pool i a pre post).answer := by
  simp only [mkRecord]
  set dpool := pool.filter (fun n => n != lowerStr a) with hdp
  set ds := (if dpool.isEmpty then ([] : List (List Char))
    else sample dpool (min 3 dpool.length)) with hds
  have hds_sub : ∀ x ∈ ds, x ∈ dpool := by
    intro x hx
    rw [hds] at hx
    by_cases hde : dpool.isEmpty = true
    · rw [if_pos hde] at hx
      cases hx
    · rw [if_neg hde] at hx
      exact hmem _ _ x hx
  have hdp_prop : ∀ x ∈ dpool, x ∈ pool ∧ x ≠ lowerStr a := by
    intro x hx
    rw [hdp] at hx
    have h2 := List.mem_filter.mp hx
    refine ⟨h2.1, ?_⟩
    simpa using h2.2
  have hdp_nd : dpool.Nodup := by
    rw [hdp]
    exact hpool_nd.filter _
  have hds_nd : ds.Nodup := by
    rw [hds]
    by_cases hde : dpool.isEmpty = true
    · rw [if_pos hde]
      exact List.nodup_nil
    · rw [if_neg hde]
      exact hnd _ _ hdp_nd
  have hna : a ∉ ds := by
    intro hin
    obtain ⟨hp, hne2⟩ := hdp_prop a (hds_sub a hin)
    exact hne2 (hpool_low a hp).symm
  constructor
  · refine ((hsh _).nodup_iff).mpr ?_
    simp [List.nodup_append, hds_nd, hna]
  · intro d hd hdne
    have hd2 : d ∈ ds ++ [a] := (hsh _).subset hd
    rcases List.mem_append.mp hd2 with hd3 | hd3
    · exact hdp_prop d (hds_sub d hd3)
    · rw [List.mem_singleton.mp hd3] at hdne
      exact absurd rfl hdne

/-- C9: in every generated question record the options are pairwise
distinct as strings; the distractors are distinct lowercase entries of
the deduplicated noun pool with the answer's lowercase form excluded, so
no distractor ever equals the original-cased answer word. -/
theorem generate_options_distinct (t : Tagger)
    (sample : List (List Char) → Nat → List (List Char))
    (shuffle : List (List Char) → List (List Char))
    (text : List Char) (num : Int) (qs : List MCQ)
    (hsh : ∀ l, List.Perm (shuffle l) l)
    (hmem : ∀ (l : List (List Char)) (k : Nat) (x : List Char), x ∈ sample l k → x ∈ l)
    (hnd : ∀ (l : List (List Char)) (k : Nat), l.Nodup → (sample l k).Nodup)
    (hgen : generate t sample shuffle text num = .ok qs) :
    ∀ q ∈ qs, q.options.Nodup ∧
      ∀ d ∈ q.options, d ≠ q.answer →
        d ∈ uniqueNouns t text ∧ d ≠ lowerStr q.answer := by
  refine generate_shape t sample shuffle text num qs _ hgen ?_
  intro s hs i a pre post hf hne hsp
  exact mkRecord_distinct sample shuffle (uniqueNouns t text) i a pre post hsh hmem hnd
    (uniqueNouns_nodup t text) (fun x hx => mem_uniqueNouns_lower t text x hx)

/-- Witness for C9 at cText: the first record's two options are distinct
and its distractor is a pool entry differing from the answer. -/
theorem generate_options_distinct_witness :
    cRecA.options.Nodup ∧
    ∀ d ∈ cRecA.options, d ≠ cRecA.answer →
      d ∈ uniqueNouns cTagger cText ∧ d ≠ lowerStr cRecA.answer := by
  have h := generate_options_distinct cTagger cSample cShuffle cText 5
    [cRecA, cRecB] cShuffle_perm cSample_mem cSample_nodup (by rfl)
  exact h cRecA (by decide)

/-- C3: when a generated question's sentence contains the answer word's
exact surface form more than once, only the first literal
(case-sensitive, substring) occurrence is replaced by the blank marker;
the text before that occurrence contains no earlier occurrence, and the
text after it is carried into the question unchanged, so every later
literal occurrence remains visible in the question text at its shifted
position. -/
theorem generate_first_occurrence_only (t : Tagger)
    (sample : List (List Char) → Nat → List (List Char))
    (shuffle : List (List Char) → List (List Char))
    (text : List Char) (num : Int) (qs : List MCQ)
    (hgen : generate t sample shuffle text num = .ok qs) :
    ∀ q ∈ qs, ∃ s pre post,
      s ∈ t.sentTokenize (cleanText text) ∧
      splitFirst q.answer s = some (pre, post) ∧
      s = pre ++ q.answer ++ post ∧
      (∀ i < pre.length, List.isPrefixOf q.answer (s.drop i) = false) ∧
      q.question = pre ++ blank ++ post ∧
      (∀ j, List.isPrefixOf q.answer (post.drop j) = true →
        List.isPrefixOf q.answer
          (q.question.drop (pre.length + blank.length + j)) = true) := by
  refine generate_shape t sample shuffle text num qs _ hgen ?_
  intro s hs i a pre post hf hne hsp
  refine ⟨s, pre, post, hs, ?_, ?_, ?_, ?_, ?_⟩
  · simpa [mkRecord] using hsp
  · simpa [mkRecord] using splitFirst_eq a s pre post hsp
  · intro i2 hi2
    have h2 := splitFirst_not_before a s pre post hsp i2 hi2
    simpa [mkRecord] using h2
  · simp [mkRecord]
  · intro j hj
    have hdrop : (pre ++ blank ++ post).drop (pre.length + blank.length + j) =
        post.drop j := by
      rw [List.append_assoc, Nat.add_assoc]
      have h1 := @List.drop_append Char pre (blank ++ post) (blank.length + j)
      rw [h1]
      exact @List.drop_append Char blank post j
    simp only [mkRecord] at hj ⊢
    rw [hdrop]
    exact hj

/-- Witness for C3 at cTextTwice, whose sentence contains "cat" twice:
only the first occurrence is blanked and the second one survives. -/
theorem generate_first_occurrence_only_witness :
    ∃ s pre post,
      s ∈ cTagger.sentTokenize (cleanText cTextTwice) ∧
      splitFirst cRecTwice.answer s = some (pre, post) ∧
      s = pre ++ cRecTwice.answer ++ post ∧
      (∀ i < pre.length, List.isPrefixOf cRecTwice.answer (s.drop i) = false) ∧
      cRecTwice.question = pre ++ blank ++ post ∧
      (∀ j, List.isPrefixOf cRecTwice.answer (post.drop j) = true →
        List.isPrefixOf cRecTwice.answer
          (cRecTwice.question.drop (pre.length + blank.length + j)) = true) := by
  have h := generate_first_occurrence_only cTagger cSample cShuffle cTextTwice 5
    [cRecTwice] (by rfl)
  exact h cRecTwice (by decide)

/-- Counterexample for C2 as stated: on the input "cat _____.", whose
sentence already contains the blank-marker substring, the single
generated question text contains the marker at two positions. -/
theorem generate_blank_marker_twice_cex :
    generate cTagger cSample cShuffle cTextU 5 = .ok [cRecU] ∧
    countOccs blank cRecU.question = 2 := by
  exact ⟨by rfl, by decide⟩

/-- C2 (amended): for every generated question record, the question text
contains the blank marker exactly once, provided no sentence of the
tokenised input contains an underscore character (in particular the
blank-marker substring). -/
theorem generate_blank_once_of_no_underscore (t : Tagger)
    (sample : List (List Char) → Nat → List (List Char))
    (shuffle : List (List Char) → List (List Char))
    (text : List Char) (num : Int) (qs : List MCQ)
    (hclean : ∀ s ∈ t.sentTokenize (cleanText text), ∀ c ∈ s, c ≠ '_')
    (hgen : generate t sample shuffle text num = .ok qs) :
    ∀ q ∈ qs, countOccs blank q.question = 1 := by
  refine generate_shape t sample shuffle text num qs _ hgen ?_
  intro s hs i a pre post hf hne hsp
  have hsplit := splitFirst_eq a s pre post hsp
  have hu : ∀ c ∈ pre, c ≠ '_' := by
    intro c hc
    refine hclean s hs c ?_
    rw [hsplit]
    simp [hc]
  have hv : ∀ c ∈ post, c ≠ '_' := by
    intro c hc
    refine hclean s hs c ?_
    rw [hsplit]
    simp [hc]
  simpa [mkRecord] using countOccs_insert_blank pre post hu hv

/-- Witness for C2 (amended) at cText, which contains no underscore: the
first record's question text holds the marker exactly once. -/
theorem generate_blank_once_of_no_underscore_witness :
    (∀ s ∈ cTagger.sentTokenize (cleanText cText), ∀ c ∈ s, c ≠ '_') ∧
    countOccs blank cRecA.question = 1 := by
  refine ⟨by decide, ?_⟩
  exact generate_blank_once_of_no_underscore cTagger cSample cShuffle cText 5
    [cRecA, cRecB] (by decide) (by rfl) cRecA (by decide)
